import Mathlib

/-!
# A verification development for the `config` package (`src/config.go`)

The package keeps, per YAML file of one folder, the decoded tree and the
substituted bytes of that file, answers dotted-key lookups and follows the
folder through a file watcher.

Modelling conventions.

* A Go `string` or `[]byte` is a sequence of bytes.  It is modelled by
  `Str := List Char`, one `Char` standing for one byte; the code only compares
  bytes for equality.
* A Go `map[string]T` is modelled by an association list read with `mapGet`
  (first match), written with `mapSet` and `mapDelete`.  Where the code ranges
  over a map, the order of the list is the order of that visit; a statement
  for every list is a statement for every order.
* A Go `interface{}` value, as the YAML decoder produces them, is a `Value`;
  the untyped `nil` interface is `Value.nil`.
* The lock of `Config` is not modelled: `parse`, `remove` and `find` run their
  whole body under the exclusive lock, so each is one atomic step.
* What the package imports (the file system, `yaml.Unmarshal`,
  `cast.ToStringMap`, `filepath.Abs`) is a field of `World`; every theorem holds
  for every `World`.
-/

namespace Metro

/-- A Go `string` or `[]byte`: a sequence of bytes. -/
abbrev Str := List Char

/-- A Go `error` value that is not `nil`. -/
structure Error where
  msg : Str
  deriving DecidableEq, Repr

/-! ## Go maps with string keys -/

/-- The read `v, ok := m[k]`: `some v` when `ok`, `none` otherwise. -/
def mapGet {β : Type} : List (Str × β) → Str → Option β
  | [], _ => none
  | (k1, v) :: rest, k => if k1 = k then some v else mapGet rest k

/-- The statement `delete(m, k)`. -/
def mapDelete {β : Type} (m : List (Str × β)) (k : Str) : List (Str × β) :=
  m.filter (fun e => !(e.1 == k))

/-- The assignment `m[k] = v`. -/
def mapSet {β : Type} (m : List (Str × β)) (k : Str) (v : β) : List (Str × β) :=
  (k, v) :: mapDelete m k

/-- The key set of a map, as a membership test. -/
def mapHas {β : Type} (m : List (Str × β)) (k : Str) : Bool :=
  (mapGet m k).isSome

/-! ## Values of type `interface{}` -/

/-- The dynamic values the decoder stores in an `interface{}`.  A `float64` is
carried by its bit pattern; it is never inspected. -/
inductive Value where
  | nil
  | bool (b : Bool)
  | int (n : Int)
  | float (bits : Nat)
  | str (s : Str)
  | seq (xs : List Value)
  | mapI (kvs : List (Value × Value))
  | mapS (kvs : List (Str × Value))

/-- The comparison `v == nil` on an `interface{}`. -/
def Value.isNil : Value → Bool
  | .nil => true
  | _ => false

/-- The two map types the type switch of `search` descends into. -/
def Value.isMapping : Value → Bool
  | .mapI _ => true
  | .mapS _ => true
  | _ => false

/-! ## The imported functions -/

/-- The collaborators of the package.
* `readFile folder file` is `ioutil.ReadFile(filepath.Join(folder, file))`;
* `unmarshal buf` is `yaml.Unmarshal(buf, &data)` on an empty
  `map[string]interface{}`, giving the filled map or the error;
* `toStringMap` is `cast.ToStringMap` on a `map[interface{}]interface{}`;
* `abs` is `filepath.Abs`. -/
structure World where
  readFile : Str → Str → Except Error Str
  unmarshal : Str → Except Error (List (Str × Value))
  toStringMap : List (Value × Value) → List (Str × Value)
  abs : Str → Str

/-! ## `strings.Split` and `bytes.ReplaceAll` -/

/-- The call `strings.Split(s, sep)` for a separator of one byte. -/
def stringsSplit (sep : Char) : Str → List Str
  | [] => [[]]
  | c :: cs =>
    if c = sep then [] :: stringsSplit sep cs
    else
      match stringsSplit sep cs with
      | [] => [[c]]
      | w :: ws => (c :: w) :: ws

/-- Whether `p` is an initial segment of `s`. -/
def startsWith : Str → Str → Bool
  | _, [] => true
  | [], _ :: _ => false
  | c :: cs, p :: ps => c == p && startsWith cs ps

/-- The scan of `bytes.ReplaceAll` for a pattern `old` that is not empty:
`skip` bytes of a match found earlier are still to be dropped; otherwise a
match at the current position is replaced and the scan goes on behind it. -/
def replaceScan (old new : Str) : Nat → Str → Str
  | _, [] => []
  | skip + 1, _ :: cs => replaceScan old new skip cs
  | 0, c :: cs =>
    if startsWith (c :: cs) old then new ++ replaceScan old new (old.length - 1) cs
    else c :: replaceScan old new 0 cs

/-- The call `bytes.ReplaceAll(s, old, new)` for `old` not empty: the matches
of `old` that do not overlap, from the left, are replaced by `new`. -/
def bytesReplaceAll (s old new : Str) : Str :=
  replaceScan old new 0 s

/-! ## The package -/

/-- The struct `Config`, without its lock.  The field `env` is `none` for a
`nil` map; the order of the list is the order in which `range` visits it. -/
structure Config where
  folder : Str
  env : Option (List (Str × Str))
  data : List (Str × Value)
  raw : List (Str × Str)

/-- The struct literal `New` starts from: both maps empty. -/
def newConfig (folder : Str) (env : Option (List (Str × Str))) : Config :=
  { folder := folder, env := env, data := [], raw := [] }

/-- The function `search`. -/
def search (toStringMap : List (Value × Value) → List (Str × Value)) :
    List (Str × Value) → List Str → Value
  | data, [] => Value.mapS data
  | data, k :: ks =>
    match mapGet data k with
    | some next =>
      if (k :: ks).length = 1 then next
      else
        match next with
        | .mapI m => search toStringMap (toStringMap m) ks
        | .mapS m => search toStringMap m ks
        | _ => Value.nil
    | none => Value.nil

/-- The placeholder `"env(" + key + ")"`. -/
def placeholder (key : Str) : Str :=
  "env(".toList ++ key ++ ")".toList

/-- The function `replace`: one `bytes.ReplaceAll` per variable, in the order
in which `range` visits the map. -/
def replace (content : Str) : Option (List (Str × Str)) → Str
  | none => content
  | some data =>
    data.foldl (fun content kv => bytesReplaceAll content (placeholder kv.1) kv.2) content

/-- The test `len(slice) == 2 && (slice[1] == "yaml" || slice[1] == "yml")`. -/
def recognized (slice : List Str) : Bool :=
  slice.length == 2 && (slice.getD 1 [] == "yaml".toList || slice.getD 1 [] == "yml".toList)

/-- What a call leaves behind: the store, the returned `error` (`none` for
`nil`) and the files it read, as pairs of folder and name. -/
structure Outcome where
  cfg : Config
  err : Option Error
  reads : List (Str × Str)

/-- The method `parse`. -/
def parse (W : World) (c : Config) (file : Str) : Outcome :=
  let slice := stringsSplit '.' file
  if recognized slice then
    match W.readFile c.folder file with
    | .error err => { cfg := c, err := some err, reads := [(c.folder, file)] }
    | .ok buffer =>
      let buffer := replace buffer c.env
      match W.unmarshal buffer with
      | .error err => { cfg := c, err := some err, reads := [(c.folder, file)] }
      | .ok data =>
        let fileName := slice.getD 0 []
        { cfg := { c with data := mapSet c.data fileName (Value.mapS data),
                          raw := mapSet c.raw fileName buffer },
          err := none, reads := [(c.folder, file)] }
  else { cfg := c, err := none, reads := [] }

/-- The method `remove`. -/
def remove (c : Config) (file : Str) : Outcome :=
  let slice := stringsSplit '.' file
  if recognized slice then
    let fileName := slice.getD 0 []
    { cfg := { c with raw := mapDelete c.raw fileName, data := mapDelete c.data fileName },
      err := none, reads := [] }
  else { cfg := c, err := none, reads := [] }

/-- The method `find`. -/
def find (W : World) (c : Config) (key : Str) : Value :=
  search W.toStringMap c.data (stringsSplit '.' key)

/-- The method `IsExist`. -/
def IsExist (W : World) (c : Config) (key : Str) : Bool :=
  !(find W c key).isNil

/-- The method `Get`. -/
def Get (W : World) (c : Config) (key : Str) : Value :=
  find W c key

/-! ## The watcher goroutine of `New` -/

/-- A value of `fsnotify.Event`: the path and the bit set of operations. -/
structure Event where
  name : Str
  op : Nat

/-- The constant `fsnotify.Create`. -/
def opCreate : Nat := 1

/-- The constant `fsnotify.Write`. -/
def opWrite : Nat := 2

/-- The constant `fsnotify.Remove`. -/
def opRemove : Nat := 4

/-- The three calls the loop body makes on the store. -/
inductive Call where
  | onCreate
  | onWrite
  | onRemove
  deriving DecidableEq, Repr

/-- What the `select` of one iteration receives: an event, taken in the world
of that moment, or an error of the watcher.  The package raises no panic of its
own; `fault` names the call of the body, if any, in which a panic is raised by
what that call runs. -/
inductive Input where
  | event (W : World) (ev : Event) (fault : Option Call)
  | error (err : Error)

/-- The expression `path[strings.LastIndex(path, string(os.PathSeparator))+1:]`,
the separator being `/`: what follows the last separator, the whole path when
there is none. -/
def fileNameOf (path : Str) : Str :=
  (path.reverse.takeWhile (fun ch => !(ch == '/'))).reverse

/-- One call of the body: it panics, leaving the store as it is, or completes.
`Except.error` carries the store at the panic. -/
def callOrPanic (panics : Bool) (c : Config) (run : Config → Outcome) : Except Config Config :=
  if panics then .error c else .ok (run c).cfg

/-- The body of the `case ev := <-watch.Events` branch. -/
def handleEvent (W : World) (c : Config) (ev : Event) (fault : Option Call) :
    Except Config Config :=
  let fileName := fileNameOf (W.abs ev.name)
  (if ev.op &&& opCreate = opCreate then
      callOrPanic (fault == some Call.onCreate) c (fun c => parse W c fileName)
    else .ok c) >>= fun c1 =>
  (if ev.op &&& opWrite = opWrite then
      callOrPanic (fault == some Call.onWrite) c1 (fun c => parse W c fileName)
    else .ok c1) >>= fun c2 =>
  (if ev.op &&& opRemove = opRemove then
      callOrPanic (fault == some Call.onRemove) c2 (fun c => remove c fileName)
    else .ok c2)

/-- The goroutine: in its `for` loop, or ended. -/
inductive Loop where
  | Running (c : Config)
  | Stopped (c : Config)

/-- One iteration of `for { select { ... } }` under the deferred `recover` of
the goroutine.  A body that completes leads to the next iteration.  The branch
of `watch.Errors` returns.  A panic leaves the loop for the deferred function,
which recovers it, and the goroutine ends. -/
def step : Loop → Input → Loop
  | .Stopped c, _ => .Stopped c
  | .Running c, .error _ => .Stopped c
  | .Running c, .event W ev fault =>
    match handleEvent W c ev fault with
    | .ok c1 => .Running c1
    | .error c1 => .Stopped c1

/-- The goroutine over the inputs it receives, in order. -/
def runLoop (l : Loop) (inputs : List Input) : Loop :=
  inputs.foldl step l

/-- Whether the goroutine is in its loop. -/
def Loop.isRunning : Loop → Bool
  | .Running _ => true
  | .Stopped _ => false

/-- The store the goroutine works on. -/
def Loop.cfg : Loop → Config
  | .Running c => c
  | .Stopped c => c

/-- Whether handling the input raises a panic: the named call is one the body
makes for this event. -/
def Input.panics : Input → Bool
  | .event _ ev (some Call.onCreate) => ev.op &&& opCreate == opCreate
  | .event _ ev (some Call.onWrite) => ev.op &&& opWrite == opWrite
  | .event _ ev (some Call.onRemove) => ev.op &&& opRemove == opRemove
  | _ => false

/-- Whether the input is an error of the watcher. -/
def Input.isError : Input → Bool
  | .error _ => true
  | _ => false

/-! ## Sequences of calls on the store -/

/-- A call that writes the store, with the world it runs in. -/
inductive Op where
  | parse (W : World) (file : Str)
  | remove (file : Str)

/-- The store after one call. -/
def applyOp (c : Config) : Op → Config
  | .parse W file => (parse W c file).cfg
  | .remove file => (remove c file).cfg

/-- The store after a sequence of calls. -/
def runOps (c : Config) (ops : List Op) : Config :=
  ops.foldl applyOp c

/-- The key sets of `data` and `raw` agree. -/
def KeysAgree (c : Config) : Prop :=
  ∀ k : Str, mapHas c.data k = mapHas c.raw k

/-! ## Presence of a key path, as the specification words it -/

/-- The value at the end of a key path, after the words of the specification:
the path is present when each segment is a key of the mapping reached by the
segments before it, whatever value is stored at its end; `none` when it is
absent.  A `map[interface{}]interface{}` is read through `toStringMap`. -/
def pathValue (toStringMap : List (Value × Value) → List (Str × Value)) :
    List (Str × Value) → List Str → Option Value
  | data, [] => some (Value.mapS data)
  | data, k :: ks =>
    match mapGet data k with
    | none => none
    | some v =>
      match ks with
      | [] => some v
      | _ :: _ =>
        match v with
        | .mapI m => pathValue toStringMap (toStringMap m) ks
        | .mapS m => pathValue toStringMap m ks
        | _ => none

/-- The test `bytes.Contains(s, t)`: `t` occurs in `s`. -/
def containsStr : Str → Str → Bool
  | [], t => startsWith [] t
  | c :: cs, t => startsWith (c :: cs) t || containsStr cs t

/-! ## A concrete world and store, for the examples -/

/-- A reading of `cast.ToStringMap` on maps whose keys are strings. -/
def stringKeys (kvs : List (Value × Value)) : List (Str × Value) :=
  kvs.filterMap (fun kv => match kv.1 with
    | .str s => some (s, kv.2)
    | _ => none)

/-- The tree of the document `primary:\n  port: 5432`. -/
def dbTree : List (Str × Value) :=
  [("primary".toList, Value.mapI [(Value.str "port".toList, Value.int 5432)])]

/-- A folder that holds `db.yaml` with `primary:\n  port: 5432` and `bad.yaml`,
which the decoder rejects; no other file can be read. -/
def demoWorld : World where
  readFile := fun _ file =>
    if file = "db.yaml".toList then .ok "primary:\n  port: 5432".toList
    else if file = "bad.yaml".toList then .ok "primary: [".toList
    else .error { msg := "no such file".toList }
  unmarshal := fun buf =>
    if buf = "primary:\n  port: 5432".toList then .ok dbTree
    else if buf = "primary:".toList then .ok [("primary".toList, Value.nil)]
    else .error { msg := "yaml: did not find expected node content".toList }
  toStringMap := stringKeys
  abs := fun name => "/etc/app/".toList ++ name

/-- The folder of `demoWorld` once `db.yaml` holds `primary:` alone. -/
def nullWorld : World :=
  { demoWorld with readFile := fun _ _ => .ok "primary:".toList }

/-- The store after `db.yaml` of `demoWorld` was loaded. -/
def demoConfig : Config :=
  (parse demoWorld (newConfig "/etc/app".toList none) "db.yaml".toList).cfg

/-- The store after `db.yaml` of `nullWorld`, which is `primary:`, was loaded. -/
def nullConfig : Config :=
  (parse nullWorld (newConfig "/etc/app".toList none) "db.yaml".toList).cfg

/-- The tree of the document `ttl: 60`. -/
def cacheTree : List (Str × Value) :=
  [("ttl".toList, Value.int 60)]

/-- The tree of the document `host: localhost`. -/
def hostTree : List (Str × Value) :=
  [("host".toList, Value.str "localhost".toList)]

/-- A folder that holds `db.yaml` with `primary:\n  port: 5432` and `cache.yaml`
with `ttl: 60`. -/
def envWorld : World where
  readFile := fun _ file =>
    if file = "db.yaml".toList then .ok "primary:\n  port: 5432".toList
    else if file = "cache.yaml".toList then .ok "ttl: 60".toList
    else .error { msg := "no such file".toList }
  unmarshal := fun buf =>
    if buf = "primary:\n  port: 5432".toList then .ok dbTree
    else if buf = "ttl: 60".toList then .ok cacheTree
    else if buf = "host: localhost".toList then .ok hostTree
    else .error { msg := "yaml: did not find expected node content".toList }
  toStringMap := stringKeys
  abs := fun name => "/etc/app/".toList ++ name

/-- The folder of `envWorld` once `db.yaml` was rewritten to `host: env(H)`. -/
def rewrittenWorld : World :=
  { envWorld with
    readFile := fun _ file =>
      if file = "db.yaml".toList then .ok "host: env(H)".toList
      else if file = "cache.yaml".toList then .ok "ttl: 60".toList
      else .error { msg := "no such file".toList } }

/-- The store with the environment `H = localhost` after `db.yaml` and
`cache.yaml` of `envWorld` were loaded. -/
def loadedConfig : Config :=
  (parse envWorld
    (parse envWorld
      (newConfig "/etc/app".toList (some [("H".toList, "localhost".toList)]))
      "db.yaml".toList).cfg
    "cache.yaml".toList).cfg

/-! ## Lemmas on maps -/

theorem mapGet_mapDelete_self {β : Type} (m : List (Str × β)) (k : Str) :
    mapGet (mapDelete m k) k = none := by
  induction m with
  | nil => rfl
  | cons e rest ih =>
    obtain ⟨k1, v⟩ := e
    by_cases h : k1 = k
    · simpa [mapDelete, List.filter_cons, h] using ih
    · simpa [mapDelete, List.filter_cons, h, mapGet] using ih

theorem mapGet_mapDelete_other {β : Type} (m : List (Str × β)) (k k2 : Str) (hne : k2 ≠ k) :
    mapGet (mapDelete m k) k2 = mapGet m k2 := by
  induction m with
  | nil => rfl
  | cons e rest ih =>
    obtain ⟨k1, v⟩ := e
    by_cases h : k1 = k
    · have h2 : ¬ k1 = k2 := fun h3 => hne (h3 ▸ h)
      have h4 : ¬ k = k2 := fun h3 => hne h3.symm
      simpa [mapDelete, List.filter_cons, h, mapGet, h2, h4] using ih
    · by_cases h2 : k1 = k2
      · subst h2
        simp [mapDelete, List.filter_cons, h, mapGet]
      · simpa [mapDelete, List.filter_cons, h, mapGet, h2] using ih

theorem mapGet_mapSet_self {β : Type} (m : List (Str × β)) (k : Str) (v : β) :
    mapGet (mapSet m k v) k = some v := by
  simp [mapSet, mapGet]

theorem mapGet_mapSet_other {β : Type} (m : List (Str × β)) (k k2 : Str) (v : β)
    (hne : k2 ≠ k) : mapGet (mapSet m k v) k2 = mapGet m k2 := by
  have h : ¬ k = k2 := fun h3 => hne h3.symm
  simp [mapSet, mapGet, h, mapGet_mapDelete_other m k k2 hne]

theorem mapHas_mapSet {β : Type} (m : List (Str × β)) (k k2 : Str) (v : β) :
    mapHas (mapSet m k v) k2 = (decide (k2 = k) || mapHas m k2) := by
  by_cases h : k2 = k
  · subst h; simp [mapHas, mapGet_mapSet_self]
  · simp [mapHas, mapGet_mapSet_other m k k2 v h, h]

theorem mapHas_mapDelete {β : Type} (m : List (Str × β)) (k k2 : Str) :
    mapHas (mapDelete m k) k2 = (!decide (k2 = k) && mapHas m k2) := by
  by_cases h : k2 = k
  · subst h; simp [mapHas, mapGet_mapDelete_self]
  · simp [mapHas, mapGet_mapDelete_other m k k2 h, h]

/-! ## Lemmas on `strings.Split` -/

theorem stringsSplit_ne_nil (sep : Char) (s : Str) : stringsSplit sep s ≠ [] := by
  induction s with
  | nil => simp [stringsSplit]
  | cons c cs ih =>
    unfold stringsSplit
    split
    · simp
    · split <;> simp

theorem stringsSplit_no_sep (sep : Char) (s : Str) (h : sep ∉ s) :
    stringsSplit sep s = [s] := by
  induction s with
  | nil => rfl
  | cons c cs ih =>
    have hc : ¬ c = sep := fun e => h (by simp [e])
    have hcs : sep ∉ cs := fun e => h (by simp [e])
    simp [stringsSplit, hc, ih hcs]

theorem stringsSplit_append (sep : Char) (a b : Str) (h : sep ∉ a) :
    stringsSplit sep (a ++ sep :: b) = a :: stringsSplit sep b := by
  induction a with
  | nil => simp [stringsSplit]
  | cons c cs ih =>
    have hc : ¬ c = sep := fun e => h (by simp [e])
    have hcs : sep ∉ cs := fun e => h (by simp [e])
    simp [stringsSplit, hc, ih hcs]

theorem stringsSplit_singleton_inv (sep : Char) (s a : Str)
    (h : stringsSplit sep s = [a]) : s = a := by
  induction s generalizing a with
  | nil =>
    simp [stringsSplit] at h
    exact h.symm
  | cons c cs ih =>
    unfold stringsSplit at h
    by_cases hc : c = sep
    · simp only [hc, if_true] at h
      exact absurd (List.cons.inj h).2 (stringsSplit_ne_nil sep cs)
    · simp only [hc, if_false] at h
      cases hsp : stringsSplit sep cs with
      | nil => exact absurd hsp (stringsSplit_ne_nil sep cs)
      | cons w ws =>
        rw [hsp] at h
        have h1 := List.cons.inj h
        rw [h1.2] at hsp
        rw [ih w hsp, ← h1.1]

/-- A split into a head and at least one more part: the head has no separator
and the string is the head, the separator and the rest. -/
theorem stringsSplit_cons_inv (sep : Char) (s : Str) (a : Str) (rest : List Str)
    (hrest : rest ≠ []) (h : stringsSplit sep s = a :: rest) :
    sep ∉ a ∧ ∃ b, s = a ++ sep :: b ∧ stringsSplit sep b = rest := by
  induction s generalizing a rest with
  | nil =>
    simp [stringsSplit] at h
    exact absurd h.2 hrest
  | cons c cs ih =>
    unfold stringsSplit at h
    by_cases hc : c = sep
    · simp only [hc, if_true] at h
      have h1 := List.cons.inj h
      refine ⟨by simp [← h1.1], cs, by simp [← h1.1, hc], h1.2⟩
    · simp only [hc, if_false] at h
      cases hsp : stringsSplit sep cs with
      | nil => exact absurd hsp (stringsSplit_ne_nil sep cs)
      | cons w ws =>
        rw [hsp] at h
        have h1 := List.cons.inj h
        have h2 := ih w ws (by rw [h1.2]; exact hrest) hsp
        rw [h1.2] at h2
        obtain ⟨hw, b, hb, hb2⟩ := h2
        refine ⟨?_, b, ?_, hb2⟩
        · rw [← h1.1]
          intro hmem
          rcases List.mem_cons.mp hmem with e | e
          · exact hc e.symm
          · exact hw e
        · rw [← h1.1, hb]; rfl

/-- The file names `parse` and `remove` work on, with the key they take. -/
theorem recognized_split_iff (file : Str) :
    recognized (stringsSplit '.' file) = true ↔
      ∃ base : Str, '.' ∉ base ∧ stringsSplit '.' file = [base, (stringsSplit '.' file).getD 1 []] ∧
        (file = base ++ ".yaml".toList ∨ file = base ++ ".yml".toList) := by
  constructor
  · intro h
    cases hs : stringsSplit '.' file with
    | nil => exact absurd hs (stringsSplit_ne_nil _ _)
    | cons a rest =>
      rw [hs] at h
      cases rest with
      | nil => simp [recognized] at h
      | cons b rest2 =>
        cases rest2 with
        | cons _ _ => simp [recognized] at h
        | nil =>
          obtain ⟨ha, b2, hfile, hb2⟩ := stringsSplit_cons_inv '.' file a [b] (by simp) hs
          have hb : b = "yaml".toList ∨ b = "yml".toList := by
            simpa [recognized] using h
          have hdot : ('.' : Char) ∉ b := by
            rcases hb with e | e <;> rw [e] <;> decide
          have hb3 : b2 = b := stringsSplit_singleton_inv '.' b2 b hb2
          refine ⟨a, ha, by simp, ?_⟩
          rw [hfile, hb3]
          rcases hb with e | e
          · left; rw [e]; rfl
          · right; rw [e]; rfl
  · rintro ⟨base, hbase, -, hfile⟩
    rcases hfile with e | e
    · rw [e, show base ++ ".yaml".toList = base ++ '.' :: "yaml".toList from rfl,
        stringsSplit_append '.' base _ hbase]
      simp [recognized, stringsSplit]
    · rw [e, show base ++ ".yml".toList = base ++ '.' :: "yml".toList from rfl,
        stringsSplit_append '.' base _ hbase]
      simp [recognized, stringsSplit]

/-! ## Lemmas on `parse` and `remove` -/

/-- The split of a recognised name `base.ext`. -/
theorem split_recognised_name (base ext : Str) (hbase : '.' ∉ base) (hext : '.' ∉ ext) :
    stringsSplit '.' (base ++ '.' :: ext) = [base, ext] := by
  rw [stringsSplit_append '.' base ext hbase, stringsSplit_no_sep '.' ext hext]

/-- On a name that is not recognised `parse` does nothing. -/
theorem parse_unrecognised (W : World) (c : Config) (file : Str)
    (h : recognized (stringsSplit '.' file) = false) :
    parse W c file = { cfg := c, err := none, reads := [] } := by
  simp [parse, h]

/-- On a name that is not recognised `remove` does nothing. -/
theorem remove_unrecognised (c : Config) (file : Str)
    (h : recognized (stringsSplit '.' file) = false) :
    remove c file = { cfg := c, err := none, reads := [] } := by
  simp [remove, h]

/-- The method `parse` on a recognised name, by the results of the read and of
the decoder. -/
theorem parse_recognised (W : World) (c : Config) (file base ext : Str)
    (hs : stringsSplit '.' file = [base, ext])
    (hr : recognized (stringsSplit '.' file) = true) :
    parse W c file =
      match W.readFile c.folder file with
      | .error err => { cfg := c, err := some err, reads := [(c.folder, file)] }
      | .ok buffer =>
        match W.unmarshal (replace buffer c.env) with
        | .error err => { cfg := c, err := some err, reads := [(c.folder, file)] }
        | .ok data =>
          { cfg := { c with data := mapSet c.data base (Value.mapS data),
                            raw := mapSet c.raw base (replace buffer c.env) },
            err := none, reads := [(c.folder, file)] } := by
  unfold parse
  simp only [hr, if_true]
  rw [hs]
  rfl

/-- The method `remove` on a recognised name. -/
theorem remove_recognised (c : Config) (file base ext : Str)
    (hs : stringsSplit '.' file = [base, ext])
    (hr : recognized (stringsSplit '.' file) = true) :
    remove c file =
      { cfg := { c with raw := mapDelete c.raw base, data := mapDelete c.data base },
        err := none, reads := [] } := by
  unfold remove
  simp only [hr, if_true]
  rw [hs]
  rfl

/-- The names `base.yaml` and `base.yml`, `base` without a dot, are recognised
and split into `base` and the extension. -/
theorem recognised_form (file base : Str) (hbase : '.' ∉ base)
    (hfile : file = base ++ ".yaml".toList ∨ file = base ++ ".yml".toList) :
    recognized (stringsSplit '.' file) = true ∧
      ∃ ext, stringsSplit '.' file = [base, ext] := by
  rcases hfile with e | e
  · have hs : stringsSplit '.' file = [base, "yaml".toList] := by
      rw [e]
      exact split_recognised_name base "yaml".toList hbase (by decide)
    exact ⟨by rw [hs]; simp [recognized], _, hs⟩
  · have hs : stringsSplit '.' file = [base, "yml".toList] := by
      rw [e]
      exact split_recognised_name base "yml".toList hbase (by decide)
    exact ⟨by rw [hs]; simp [recognized], _, hs⟩

theorem keysAgree_parse (W : World) (c : Config) (file : Str) (h : KeysAgree c) :
    KeysAgree (parse W c file).cfg := by
  unfold parse
  simp only []
  split
  · split
    · exact h
    · split
      · exact h
      · intro k
        simp only [mapHas_mapSet, h k]
  · exact h

theorem keysAgree_remove (c : Config) (file : Str) (h : KeysAgree c) :
    KeysAgree (remove c file).cfg := by
  unfold remove
  simp only []
  split
  · intro k
    simp only [mapHas_mapDelete, h k]
  · exact h

theorem keysAgree_runOps (c : Config) (ops : List Op) (h : KeysAgree c) :
    KeysAgree (runOps c ops) := by
  induction ops generalizing c with
  | nil => exact h
  | cons op rest ih =>
    have h1 : KeysAgree (applyOp c op) := by
      cases op with
      | parse W file => exact keysAgree_parse W c file h
      | remove file => exact keysAgree_remove c file h
    exact ih (applyOp c op) h1

/-! ## The claims on the store -/

/-- C1. When `parse` returns an error, the read having failed or the decoder
having rejected the substituted bytes, the store is the one before the call:
`data` and `raw` are the same maps, so a loaded entry keeps its tree and its
bytes and an absent one stays absent. -/
theorem parse_error_keeps_store (W : World) (c : Config) (file : Str)
    (h : (parse W c file).err ≠ none) :
    (parse W c file).cfg = c ∧
      (parse W c file).cfg.data = c.data ∧ (parse W c file).cfg.raw = c.raw := by
  have key : (parse W c file).cfg = c := by
    revert h
    unfold parse
    simp only []
    split
    · split
      · intro _; rfl
      · split
        · intro _; rfl
        · intro h; exact absurd rfl h
    · intro _; rfl
  exact ⟨key, by rw [key], by rw [key]⟩

/-- In `demoWorld` the decoder rejects `bad.yaml`; the store with `db.yaml`
loaded is left as it was. -/
theorem parse_error_keeps_store_witness :
    (parse demoWorld demoConfig "bad.yaml".toList).err ≠ none ∧
      ((parse demoWorld demoConfig "bad.yaml".toList).cfg = demoConfig ∧
        (parse demoWorld demoConfig "bad.yaml".toList).cfg.data = demoConfig.data ∧
        (parse demoWorld demoConfig "bad.yaml".toList).cfg.raw = demoConfig.raw) :=
  ⟨by decide, parse_error_keeps_store demoWorld demoConfig "bad.yaml".toList (by decide)⟩

/-- C2. In every store reached from the empty store of `New` by a sequence of
`parse` and `remove` calls, with any file names and any results of the reads
and of the decoder, `data` and `raw` have the same keys. -/
theorem store_keys_agree (folder : Str) (env : Option (List (Str × Str)))
    (ops : List Op) (k : Str) :
    mapHas (runOps (newConfig folder env) ops).data k =
      mapHas (runOps (newConfig folder env) ops).raw k :=
  keysAgree_runOps (newConfig folder env) ops (fun _ => rfl) k

/-- C3. For a name `base.yaml` or `base.yml` whose read and decoding succeed,
`parse` returns no error, `data[base]` is the tree decoded from the
substituted bytes, `raw[base]` is those bytes, and the entries of every other
key are the ones before the call. -/
theorem parse_replaces_entry (W : World) (c : Config) (file base buffer : Str)
    (tree : List (Str × Value)) (hbase : '.' ∉ base)
    (hfile : file = base ++ ".yaml".toList ∨ file = base ++ ".yml".toList)
    (hread : W.readFile c.folder file = .ok buffer)
    (hdec : W.unmarshal (replace buffer c.env) = .ok tree) :
    (parse W c file).err = none ∧
      mapGet (parse W c file).cfg.data base = some (Value.mapS tree) ∧
      mapGet (parse W c file).cfg.raw base = some (replace buffer c.env) ∧
      ∀ k : Str, k ≠ base →
        mapGet (parse W c file).cfg.data k = mapGet c.data k ∧
        mapGet (parse W c file).cfg.raw k = mapGet c.raw k := by
  obtain ⟨hr, ext, hs⟩ := recognised_form file base hbase hfile
  rw [parse_recognised W c file base ext hs hr, hread]
  simp only [hdec]
  refine ⟨trivial, mapGet_mapSet_self _ _ _, mapGet_mapSet_self _ _ _, ?_⟩
  intro k hk
  exact ⟨mapGet_mapSet_other _ _ _ _ hk, mapGet_mapSet_other _ _ _ _ hk⟩

/-- The store holds `db`, loaded from `primary:\n  port: 5432`, and `cache`,
and its environment is `H = localhost`.  Once `db.yaml` is rewritten to
`host: env(H)`, `parse` of `db.yaml` puts the tree of `host: localhost` in the
place of the old tree, of which nothing is left, and the substituted bytes in
the place of the old bytes; the entries of `cache` are the ones before. -/
theorem parse_replaces_entry_witness :
    ('.' ∉ "db".toList ∧
      replace "host: env(H)".toList loadedConfig.env = "host: localhost".toList ∧
      mapGet loadedConfig.data "db".toList = some (Value.mapS dbTree) ∧
      mapGet loadedConfig.raw "db".toList = some "primary:\n  port: 5432".toList ∧
      mapGet loadedConfig.data "cache".toList = some (Value.mapS cacheTree) ∧
      mapGet loadedConfig.raw "cache".toList = some "ttl: 60".toList ∧
      search rewrittenWorld.toStringMap
        (parse rewrittenWorld loadedConfig "db.yaml".toList).cfg.data
        ["db".toList, "primary".toList] = Value.nil ∧
      mapGet (parse rewrittenWorld loadedConfig "db.yaml".toList).cfg.data "cache".toList
        = some (Value.mapS cacheTree) ∧
      mapGet (parse rewrittenWorld loadedConfig "db.yaml".toList).cfg.raw "cache".toList
        = some "ttl: 60".toList) ∧
      ((parse rewrittenWorld loadedConfig "db.yaml".toList).err = none ∧
        mapGet (parse rewrittenWorld loadedConfig "db.yaml".toList).cfg.data "db".toList
          = some (Value.mapS hostTree) ∧
        mapGet (parse rewrittenWorld loadedConfig "db.yaml".toList).cfg.raw "db".toList
          = some (replace "host: env(H)".toList loadedConfig.env) ∧
        ∀ k : Str, k ≠ "db".toList →
          mapGet (parse rewrittenWorld loadedConfig "db.yaml".toList).cfg.data k
            = mapGet loadedConfig.data k ∧
          mapGet (parse rewrittenWorld loadedConfig "db.yaml".toList).cfg.raw k
            = mapGet loadedConfig.raw k) :=
  ⟨⟨by decide, by decide, rfl, by decide, rfl, by decide, rfl, rfl, by decide⟩,
    parse_replaces_entry rewrittenWorld loadedConfig "db.yaml".toList
      "db".toList "host: env(H)".toList hostTree (by decide) (Or.inl rfl) rfl rfl⟩

/-- C8. The names `parse` and `remove` work on are the names `base.yaml` and
`base.yml` with `base` free of dots, the extension compared byte by byte.  On
every other name both return no error, leave the store as it is, and `parse`
reads no file.  On a recognised name `parse` reads that file of the folder and
touches no key but `base`, and `remove` deletes the key `base` of both maps. -/
theorem file_name_recognition (W : World) (c : Config) (file : Str) :
    (recognized (stringsSplit '.' file) = true ↔
      ∃ base : Str, '.' ∉ base ∧
        (file = base ++ ".yaml".toList ∨ file = base ++ ".yml".toList)) ∧
    (recognized (stringsSplit '.' file) = false →
      parse W c file = { cfg := c, err := none, reads := [] } ∧
      remove c file = { cfg := c, err := none, reads := [] }) ∧
    (∀ base : Str, '.' ∉ base →
      (file = base ++ ".yaml".toList ∨ file = base ++ ".yml".toList) →
      (parse W c file).reads = [(c.folder, file)] ∧
      (∀ k : Str, k ≠ base →
        mapGet (parse W c file).cfg.data k = mapGet c.data k ∧
        mapGet (parse W c file).cfg.raw k = mapGet c.raw k) ∧
      (remove c file).err = none ∧
      (remove c file).cfg.data = mapDelete c.data base ∧
      (remove c file).cfg.raw = mapDelete c.raw base) := by
  refine ⟨?_, ?_, ?_⟩
  · rw [recognized_split_iff]
    constructor
    · rintro ⟨base, h1, -, h3⟩
      exact ⟨base, h1, h3⟩
    · rintro ⟨base, h1, h3⟩
      obtain ⟨-, ext, hs⟩ := recognised_form file base h1 h3
      exact ⟨base, h1, by rw [hs]; rfl, h3⟩
  · intro h
    exact ⟨parse_unrecognised W c file h, remove_unrecognised c file h⟩
  · intro base hbase hfile
    obtain ⟨hr, ext, hs⟩ := recognised_form file base hbase hfile
    rw [parse_recognised W c file base ext hs hr, remove_recognised c file base ext hs hr]
    refine ⟨?_, ?_, rfl, rfl, rfl⟩
    · split
      · rfl
      · split <;> rfl
    · intro k hk
      split
      · exact ⟨rfl, rfl⟩
      · split
        · exact ⟨rfl, rfl⟩
        · exact ⟨mapGet_mapSet_other _ _ _ _ hk, mapGet_mapSet_other _ _ _ _ hk⟩

/-- The names `a.b.yaml`, `a.YAML`, `yaml` and `a.txt` are not recognised;
`parse` and `remove` of `a.YAML` leave the loaded store alone. -/
theorem file_name_recognition_witness :
    (recognized (stringsSplit '.' "a.b.yaml".toList) = false ∧
      recognized (stringsSplit '.' "yaml".toList) = false ∧
      recognized (stringsSplit '.' "a.txt".toList) = false ∧
      recognized (stringsSplit '.' "a.YAML".toList) = false) ∧
    (parse demoWorld demoConfig "a.YAML".toList
        = { cfg := demoConfig, err := none, reads := [] } ∧
      remove demoConfig "a.YAML".toList = { cfg := demoConfig, err := none, reads := [] }) :=
  ⟨by decide,
    (file_name_recognition demoWorld demoConfig "a.YAML".toList).2.1 (by decide)⟩

/-! ## Lemmas on `search` -/

theorem search_missing (tsm : List (Value × Value) → List (Str × Value))
    (data : List (Str × Value)) (k : Str) (ks : List Str) (h : mapGet data k = none) :
    search tsm data (k :: ks) = Value.nil := by
  unfold search
  simp only [h]

theorem search_single (tsm : List (Value × Value) → List (Str × Value))
    (data : List (Str × Value)) (k : Str) (v : Value) (h : mapGet data k = some v) :
    search tsm data [k] = v := by
  unfold search
  simp only [h, List.length_singleton, if_true]

theorem search_descend (tsm : List (Value × Value) → List (Str × Value))
    (data : List (Str × Value)) (k k2 : Str) (ks : List Str) (v : Value)
    (h : mapGet data k = some v) :
    search tsm data (k :: k2 :: ks) =
      match v with
      | .mapI m => search tsm (tsm m) (k2 :: ks)
      | .mapS m => search tsm m (k2 :: ks)
      | _ => Value.nil := by
  rw [search]
  simp only [h]
  have hlen : ¬ (k :: k2 :: ks).length = 1 := by
    simp only [List.length_cons]; omega
  rw [if_neg hlen]
  cases v <;> rfl

theorem search_eq_pathValue (tsm : List (Value × Value) → List (Str × Value))
    (data : List (Str × Value)) (ks : List Str) :
    search tsm data ks = (pathValue tsm data ks).getD Value.nil := by
  induction ks generalizing data with
  | nil => rfl
  | cons k rest ih =>
    cases hget : mapGet data k with
    | none =>
      rw [search_missing tsm data k rest hget]
      unfold pathValue
      simp only [hget]
      rfl
    | some v =>
      cases rest with
      | nil =>
        rw [search_single tsm data k v hget]
        unfold pathValue
        simp only [hget]
        rfl
      | cons k2 rest2 =>
        rw [search_descend tsm data k k2 rest2 v hget]
        rw [pathValue]
        simp only [hget]
        cases v with
        | mapI m => exact ih (tsm m)
        | mapS m => exact ih m
        | nil => rfl
        | bool b => rfl
        | int n => rfl
        | float f => rfl
        | str t => rfl
        | seq xs => rfl

theorem search_past_non_mapping (tsm : List (Value × Value) → List (Str × Value))
    (data : List (Str × Value)) (pre rest : List Str) (hrest : rest ≠ [])
    (h : (search tsm data pre).isMapping = false) :
    search tsm data (pre ++ rest) = Value.nil := by
  induction pre generalizing data with
  | nil => exact absurd h (by simp [search, Value.isMapping])
  | cons k ks ih =>
    cases hget : mapGet data k with
    | none => exact search_missing tsm data k (ks ++ rest) hget
    | some v =>
      cases ks with
      | nil =>
        rw [search_single tsm data k v hget] at h
        cases rest with
        | nil => exact absurd rfl hrest
        | cons r rs =>
          rw [List.singleton_append, search_descend tsm data k r rs v hget]
          cases v with
          | mapI m => exact absurd h (by simp [Value.isMapping])
          | mapS m => exact absurd h (by simp [Value.isMapping])
          | nil => rfl
          | bool b => rfl
          | int n => rfl
          | float f => rfl
          | str t => rfl
          | seq xs => rfl
      | cons k2 ks2 =>
        rw [search_descend tsm data k k2 ks2 v hget] at h
        rw [List.cons_append, List.cons_append, search_descend tsm data k k2 (ks2 ++ rest) v hget]
        cases v with
        | mapI m => exact ih (tsm m) h
        | mapS m => exact ih m h
        | nil => rfl
        | bool b => rfl
        | int n => rfl
        | float f => rfl
        | str t => rfl
        | seq xs => rfl

/-! ## The claims on lookups -/

/-- C4. A path through a value that is not a mapping is a miss, not a failure.
When the first of at least two segments is a key mapped to a scalar, a
sequence or `nil`, `search` returns `nil`.  More generally, when the segments
`pre` lead to a value that is not a mapping, `search` on `pre` followed by
further segments returns `nil`, and so do `find` and `Get` on a dotted key that
splits into such segments. -/
theorem search_non_mapping_is_miss (W : World) (c : Config) :
    (∀ (data : List (Str × Value)) (k k2 : Str) (ks : List Str) (v : Value),
        mapGet data k = some v → v.isMapping = false →
        search W.toStringMap data (k :: k2 :: ks) = Value.nil) ∧
    (∀ (data : List (Str × Value)) (pre rest : List Str),
        rest ≠ [] → (search W.toStringMap data pre).isMapping = false →
        search W.toStringMap data (pre ++ rest) = Value.nil) ∧
    (∀ (key : Str) (pre rest : List Str),
        stringsSplit '.' key = pre ++ rest → rest ≠ [] →
        (search W.toStringMap c.data pre).isMapping = false →
        find W c key = Value.nil ∧ Get W c key = Value.nil) := by
  refine ⟨?_, ?_, ?_⟩
  · intro data k k2 ks v hget hv
    have h : (search W.toStringMap data [k]).isMapping = false := by
      rw [search_single W.toStringMap data k v hget]; exact hv
    exact search_past_non_mapping W.toStringMap data [k] (k2 :: ks) (by simp) h
  · intro data pre rest hrest h
    exact search_past_non_mapping W.toStringMap data pre rest hrest h
  · intro key pre rest hs hrest h
    have h2 : find W c key = Value.nil := by
      unfold find
      rw [hs]
      exact search_past_non_mapping W.toStringMap c.data pre rest hrest h
    exact ⟨h2, h2⟩

/-- With `db.yaml` loaded, `db.primary.port` is the integer 5432, and the key
`db.primary.port.x`, which has to go through it, is absent. -/
theorem search_non_mapping_is_miss_witness :
    (search demoWorld.toStringMap demoConfig.data
        ["db".toList, "primary".toList, "port".toList]).isMapping = false ∧
      (find demoWorld demoConfig "db.primary.port.x".toList = Value.nil ∧
        Get demoWorld demoConfig "db.primary.port.x".toList = Value.nil) :=
  ⟨by decide,
    (search_non_mapping_is_miss demoWorld demoConfig).2.2 "db.primary.port.x".toList
      ["db".toList, "primary".toList, "port".toList] ["x".toList] (by decide) (by decide)
      (by decide)⟩

/-- C5. A dotted key of one segment gives the whole tree stored for the
document of that name, and `nil` when no such document is loaded; a key of any
length whose first segment names no loaded document gives `nil`.  The lookup
is total: it returns a value and no error. -/
theorem whole_document_fetch (W : World) (c : Config) :
    (∀ (key : Str) (v : Value), '.' ∉ key → mapGet c.data key = some v →
        find W c key = v ∧ Get W c key = v) ∧
    (∀ key : Str, '.' ∉ key → mapGet c.data key = none →
        find W c key = Value.nil ∧ Get W c key = Value.nil) ∧
    (∀ (key first : Str) (rest : List Str), stringsSplit '.' key = first :: rest →
        mapGet c.data first = none →
        find W c key = Value.nil ∧ Get W c key = Value.nil) := by
  refine ⟨?_, ?_, ?_⟩
  · intro key v hdot hget
    have h : find W c key = v := by
      unfold find
      rw [stringsSplit_no_sep '.' key hdot]
      exact search_single W.toStringMap c.data key v hget
    exact ⟨h, h⟩
  · intro key hdot hget
    have h : find W c key = Value.nil := by
      unfold find
      rw [stringsSplit_no_sep '.' key hdot]
      exact search_missing W.toStringMap c.data key [] hget
    exact ⟨h, h⟩
  · intro key first rest hs hget
    have h : find W c key = Value.nil := by
      unfold find
      rw [hs]
      exact search_missing W.toStringMap c.data first rest hget
    exact ⟨h, h⟩

/-- With `db.yaml` loaded, `db` is the whole tree of the file, and `cache` and
`cache.ttl` are absent. -/
theorem whole_document_fetch_witness :
    (find demoWorld demoConfig "db".toList = Value.mapS dbTree ∧
      Get demoWorld demoConfig "db".toList = Value.mapS dbTree) ∧
    (find demoWorld demoConfig "cache".toList = Value.nil ∧
      Get demoWorld demoConfig "cache".toList = Value.nil) ∧
    (find demoWorld demoConfig "cache.ttl".toList = Value.nil ∧
      Get demoWorld demoConfig "cache.ttl".toList = Value.nil) :=
  ⟨(whole_document_fetch demoWorld demoConfig).1 "db".toList (Value.mapS dbTree)
      (by decide) rfl,
    (whole_document_fetch demoWorld demoConfig).2.1 "cache".toList (by decide) rfl,
    (whole_document_fetch demoWorld demoConfig).2.2 "cache.ttl".toList "cache".toList
      ["ttl".toList] (by decide) rfl⟩

/-- C7, as the claim states it, fails: with `db.yaml` holding `primary:` the
path `db.primary` is present, its value being `nil`, and `IsExist` is false. -/
theorem isExist_null_counterexample :
    (pathValue nullWorld.toStringMap nullConfig.data
        (stringsSplit '.' "db.primary".toList)).isSome = true ∧
      IsExist nullWorld nullConfig "db.primary".toList = false := by
  decide

/-- C7, amended. `IsExist` is true exactly when the key path is present and the
value at its end is not `nil`; it is false when the path is absent and when the
value at its end is `nil`. -/
theorem isExist_iff_present_non_nil (W : World) (c : Config) (key : Str) :
    (IsExist W c key = true ↔
      ∃ v : Value, pathValue W.toStringMap c.data (stringsSplit '.' key) = some v ∧
        v.isNil = false) ∧
    (IsExist W c key = false ↔
      pathValue W.toStringMap c.data (stringsSplit '.' key) = none ∨
      pathValue W.toStringMap c.data (stringsSplit '.' key) = some Value.nil) := by
  unfold IsExist find
  rw [search_eq_pathValue]
  cases pathValue W.toStringMap c.data (stringsSplit '.' key) with
  | none => simp [Value.isNil]
  | some v => cases v <;> simp [Value.isNil]

/-- C9. For a name `base.yaml` or `base.yml`, `remove` returns no error,
whether the document is loaded or not; afterwards `data` and `raw` have no
entry for `base`, every dotted key whose first segment is `base` is absent for
`Get` and false for `IsExist`, and the entries of all other keys are the ones
before the call. -/
theorem remove_takes_effect (W : World) (c : Config) (file base : Str) (hbase : '.' ∉ base)
    (hfile : file = base ++ ".yaml".toList ∨ file = base ++ ".yml".toList) :
    (remove c file).err = none ∧
    mapGet (remove c file).cfg.data base = none ∧
    mapGet (remove c file).cfg.raw base = none ∧
    (∀ key : Str, (stringsSplit '.' key).head? = some base →
      Get W (remove c file).cfg key = Value.nil ∧
      IsExist W (remove c file).cfg key = false) ∧
    (∀ k : Str, k ≠ base →
      mapGet (remove c file).cfg.data k = mapGet c.data k ∧
      mapGet (remove c file).cfg.raw k = mapGet c.raw k) := by
  obtain ⟨hr, ext, hs⟩ := recognised_form file base hbase hfile
  rw [remove_recognised c file base ext hs hr]
  refine ⟨rfl, mapGet_mapDelete_self _ _, mapGet_mapDelete_self _ _, ?_, ?_⟩
  · intro key hkey
    cases hsp : stringsSplit '.' key with
    | nil => exact absurd hsp (stringsSplit_ne_nil _ _)
    | cons first rest =>
      rw [hsp] at hkey
      have hfirst : first = base := by simpa using hkey
      have h : find W { c with raw := mapDelete c.raw base, data := mapDelete c.data base } key
          = Value.nil := by
        unfold find
        rw [hsp, hfirst]
        exact search_missing _ _ _ _ (mapGet_mapDelete_self _ _)
      exact ⟨h, by unfold IsExist; rw [h]; rfl⟩
  · intro k hk
    exact ⟨mapGet_mapDelete_other _ _ _ hk, mapGet_mapDelete_other _ _ _ hk⟩

/-- With `db.yaml` loaded as `primary:\n  port: 5432`, `db.primary.port` exists;
after `remove` of `db.yaml` it is absent and `IsExist` is false. -/
theorem remove_takes_effect_witness :
    IsExist demoWorld demoConfig "db.primary.port".toList = true ∧
      (Get demoWorld (remove demoConfig "db.yaml".toList).cfg "db.primary.port".toList
          = Value.nil ∧
        IsExist demoWorld (remove demoConfig "db.yaml".toList).cfg "db.primary.port".toList
          = false) :=
  ⟨by decide,
    (remove_takes_effect demoWorld demoConfig "db.yaml".toList "db".toList (by decide)
      (Or.inl rfl)).2.2.2.1 "db.primary.port".toList (by decide)⟩

/-! ## Substitution -/

theorem startsWith_iff (s t : Str) : startsWith s t = true ↔ ∃ q, s = t ++ q := by
  induction s generalizing t with
  | nil =>
    cases t with
    | nil => simp [startsWith]
    | cons p ps => simp [startsWith]
  | cons c cs ih =>
    cases t with
    | nil => simp [startsWith]
    | cons p ps =>
      simp only [startsWith, Bool.and_eq_true, beq_iff_eq, ih ps, List.cons_append,
        List.cons.injEq]
      constructor
      · rintro ⟨h1, q, h2⟩
        exact ⟨q, h1, h2⟩
      · rintro ⟨q, h1, h2⟩
        exact ⟨h1, q, h2⟩

theorem containsStr_iff (s t : Str) : containsStr s t = true ↔ ∃ p q, s = p ++ t ++ q := by
  induction s with
  | nil =>
    simp only [containsStr, startsWith_iff]
    constructor
    · rintro ⟨q, h⟩
      exact ⟨[], q, by simpa using h⟩
    · rintro ⟨p, q, h⟩
      have h1 : p = [] ∧ t = [] ∧ q = [] := by simpa [List.append_assoc] using h.symm
      exact ⟨[], by simp [h1.2.1]⟩
  | cons c cs ih =>
    simp only [containsStr, Bool.or_eq_true, startsWith_iff, ih]
    constructor
    · rintro (⟨q, h⟩ | ⟨p, q, h⟩)
      · exact ⟨[], q, by simpa using h⟩
      · exact ⟨c :: p, q, by simp [h]⟩
    · rintro ⟨p, q, h⟩
      cases p with
      | nil => exact Or.inl ⟨q, by simpa using h⟩
      | cons d p2 =>
        simp only [List.cons_append, List.cons.injEq] at h
        exact Or.inr ⟨p2, q, h.2⟩

theorem containsStr_trans (s u t : Str) (h1 : containsStr s u = true)
    (h2 : containsStr u t = true) : containsStr s t = true := by
  rw [containsStr_iff] at h1 h2 ⊢
  obtain ⟨p, q, hs⟩ := h1
  obtain ⟨p2, q2, hu⟩ := h2
  exact ⟨p ++ p2, q2 ++ q, by rw [hs, hu]; simp [List.append_assoc]⟩

/-- A pass of `bytes.ReplaceAll` over a text in which `old` occurs leaves `new`
in the result, as it is. -/
theorem bytesReplaceAll_contains_new (s old new : Str) (hold : old ≠ [])
    (h : containsStr s old = true) : containsStr (bytesReplaceAll s old new) new = true := by
  unfold bytesReplaceAll
  induction s with
  | nil =>
    cases old with
    | nil => exact absurd rfl hold
    | cons p ps => simp [containsStr, startsWith] at h
  | cons c cs ih =>
    rw [replaceScan]
    by_cases hsw : startsWith (c :: cs) old = true
    · rw [if_pos hsw]
      exact (containsStr_iff _ _).mpr ⟨[], replaceScan old new (old.length - 1) cs, by simp⟩
    · rw [if_neg hsw]
      have h2 : containsStr cs old = true := by
        simp only [containsStr, Bool.or_eq_true] at h
        rcases h with h | h
        · exact absurd h hsw
        · exact h
      have h3 := ih h2
      simp only [containsStr, Bool.or_eq_true]
      exact Or.inr h3

theorem placeholder_ne_nil (key : Str) : placeholder key ≠ [] := by
  simp [placeholder]

theorem replace_snoc (content : Str) (es : List (Str × Str)) (key val : Str) :
    replace content (some (es ++ [(key, val)])) =
      bytesReplaceAll (replace content (some es)) (placeholder key) val := by
  simp [replace, List.foldl_append]

/-- C6, as the claim states it, fails.  The value of `A` contains `env(B)` and
the content contains `env(A)`; when `range` visits `A` before `B` the text
inserted for `A` is substituted by the pass of `B`, and the result is `x`,
without `env(B)`. -/
theorem replace_resubstitutes_counterexample :
    containsStr "env(A)".toList (placeholder "A".toList) = true ∧
      containsStr "env(B)".toList (placeholder "B".toList) = true ∧
      replace "env(A)".toList (some [("A".toList, "env(B)".toList), ("B".toList, "x".toList)])
        = "x".toList ∧
      containsStr
        (replace "env(A)".toList
          (some [("A".toList, "env(B)".toList), ("B".toList, "x".toList)]))
        (placeholder "B".toList) = false := by
  decide

/-- C6, amended. Substitution is one pass per variable, in the order in which
`range` visits the map, and a pass does not go over what it inserted.  For the
variable visited last: when its placeholder occurs in the content its pass
works on, its value is in the result as it is, together with every text the
value contains, such as the placeholder `env(B)` of a variable visited before
it or its own placeholder. -/
theorem replace_last_value_verbatim (content : Str) (es : List (Str × Str))
    (key val t : Str)
    (hkey : containsStr (replace content (some es)) (placeholder key) = true)
    (ht : containsStr val t = true) :
    replace content (some (es ++ [(key, val)])) =
        bytesReplaceAll (replace content (some es)) (placeholder key) val ∧
      containsStr (replace content (some (es ++ [(key, val)]))) val = true ∧
      containsStr (replace content (some (es ++ [(key, val)]))) t = true := by
  have h1 := replace_snoc content es key val
  have h2 : containsStr (replace content (some (es ++ [(key, val)]))) val = true := by
    rw [h1]
    exact bytesReplaceAll_contains_new _ _ _ (placeholder_ne_nil key) hkey
  exact ⟨h1, h2, containsStr_trans _ _ _ h2 ht⟩

/-- When `range` visits `B` before `A`, whose value is `env(B)`, the content
`host: env(A)` becomes `host: env(B)`. -/
theorem replace_last_value_verbatim_witness :
    (containsStr
        (replace "host: env(A)".toList (some [("B".toList, "x".toList)]))
        (placeholder "A".toList) = true ∧
      containsStr "env(B)".toList (placeholder "B".toList) = true) ∧
    (replace "host: env(A)".toList
        (some ([("B".toList, "x".toList)] ++ [("A".toList, "env(B)".toList)])) =
        bytesReplaceAll (replace "host: env(A)".toList (some [("B".toList, "x".toList)]))
          (placeholder "A".toList) "env(B)".toList ∧
      containsStr
        (replace "host: env(A)".toList
          (some ([("B".toList, "x".toList)] ++ [("A".toList, "env(B)".toList)])))
        "env(B)".toList = true ∧
      containsStr
        (replace "host: env(A)".toList
          (some ([("B".toList, "x".toList)] ++ [("A".toList, "env(B)".toList)])))
        (placeholder "B".toList) = true) :=
  ⟨by decide,
    replace_last_value_verbatim "host: env(A)".toList [("B".toList, "x".toList)]
      "A".toList "env(B)".toList (placeholder "B".toList) (by decide) (by decide)⟩

/-! ## The watcher loop -/

theorem runLoop_stopped (c : Config) (inputs : List Input) :
    runLoop (Loop.Stopped c) inputs = Loop.Stopped c := by
  induction inputs with
  | nil => rfl
  | cons i rest ih =>
    unfold runLoop at ih ⊢
    rw [List.foldl_cons]
    exact ih

/-- C10, as the claim states it, fails.  With `db.yaml` loaded, a write event
whose handling panics ends the loop, though no error of the watcher was
delivered; the remove event that follows is not handled, and `db.primary.port`
is still in the store.  Without the panic the same two events leave the loop
running and the document is removed. -/
theorem watcher_panic_counterexample :
    Input.isError (Input.event demoWorld ⟨"db.yaml".toList, opWrite⟩ (some Call.onWrite))
        = false ∧
      (step (Loop.Running demoConfig)
        (Input.event demoWorld ⟨"db.yaml".toList, opWrite⟩ (some Call.onWrite))).isRunning
        = false ∧
      IsExist demoWorld
        (runLoop (Loop.Running demoConfig)
          [Input.event demoWorld ⟨"db.yaml".toList, opWrite⟩ (some Call.onWrite),
            Input.event demoWorld ⟨"db.yaml".toList, opRemove⟩ none]).cfg
        "db.primary.port".toList = true ∧
      (runLoop (Loop.Running demoConfig)
          [Input.event demoWorld ⟨"db.yaml".toList, opWrite⟩ none,
            Input.event demoWorld ⟨"db.yaml".toList, opRemove⟩ none]).isRunning = true ∧
      IsExist demoWorld
        (runLoop (Loop.Running demoConfig)
          [Input.event demoWorld ⟨"db.yaml".toList, opWrite⟩ none,
            Input.event demoWorld ⟨"db.yaml".toList, opRemove⟩ none]).cfg
        "db.primary.port".toList = false := by
  decide

/-- C10, amended. The loop leaves `Running` for `Stopped` exactly on an error
of the watcher or on a panic raised while an event is handled: the deferred
`recover` of the goroutine catches the panic and the goroutine ends.  An event
handled without a panic keeps the loop `Running`.  `Stopped` is final: no
input is handled after it and the store stays as it is. -/
theorem watcher_stops_on_error_or_panic (c : Config) (i : Input) (inputs : List Input) :
    ((step (Loop.Running c) i).isRunning = false ↔ (i.isError = true ∨ i.panics = true)) ∧
      runLoop (Loop.Stopped c) inputs = Loop.Stopped c := by
  refine ⟨?_, runLoop_stopped c inputs⟩
  cases i with
  | error e => simp [step, Loop.isRunning, Input.isError]
  | event W ev fault =>
    by_cases h1 : ev.op &&& opCreate = opCreate <;>
    by_cases h2 : ev.op &&& opWrite = opWrite <;>
    by_cases h3 : ev.op &&& opRemove = opRemove <;>
    rcases fault with _ | (_ | _ | _) <;>
    simp [step, handleEvent, callOrPanic, Loop.isRunning, Input.isError, Input.panics,
      h1, h2, h3, bind, Except.bind]

end Metro
